import Mathlib

/-!
# Verification of the Video-Transcriber audio-conditioning and session core

Shallow embedding of the audio conditioning and transcription-session code
(`src/utils/audioUtils.ts`, `src/services/geminiService.ts`,
`src/services/openaiService.ts`, `src/constants.ts`) into Lean 4.

Conventions of the embedding:
* JavaScript numbers (floats) are embedded as rationals `ℚ`; machine
  integer conversion (`ToInt16` performed by an `Int16Array` / `DataView`
  element store) is embedded explicitly: truncation toward zero followed by
  reduction modulo 2^16 into the signed range.
* JavaScript strings are embedded as `List Char`; byte arrays
  (`Uint8Array`, binary strings) as `List Nat` of values `< 256`.
* Stateful callback code is embedded as explicit state passing.
-/

namespace VideoTranscriber

/-! ## Constants (`src/constants.ts`) -/

/-- `TARGET_SAMPLE_RATE = 16000` (src/constants.ts). -/
def TARGET_SAMPLE_RATE : ℚ := 16000

/-- `AUDIO_CHUNK_SIZE = 4096` (src/constants.ts): samples per streamed chunk. -/
def AUDIO_CHUNK_SIZE : Nat := 4096

/-! ## 16-bit sample conversion

Two conversions appear in `src/utils/audioUtils.ts`:

* `createPcmBlob` (line 43): `int16[i] = Math.min(1, Math.max(-1, f)) * 32767`.
  Storing a float into an `Int16Array` applies ECMAScript `ToInt16`:
  truncate toward zero, then reduce modulo 2^16 into `[-32768, 32767]`.
* `createWavBlobFromAudioBuffer` (lines 172-174):
  `s = Math.max(-1, Math.min(1, x)); s = s < 0 ? s * 0x8000 : s * 0x7FFF;
  view.setInt16(dataOffset, s, true)` — `setInt16` also applies `ToInt16`.
-/

/-- Truncation toward zero of a rational, as ECMAScript `truncate` inside
`ToInt16`: floor for non-negative values, ceiling for negative ones. -/
def ratTrunc (q : ℚ) : ℤ := if 0 ≤ q then ⌊q⌋ else ⌈q⌉

/-- ECMAScript `ToInt16` applied to an already-truncated integer: reduce
modulo 2^16 and map into the signed 16-bit range. -/
def toInt16 (n : ℤ) : ℤ := (n + 32768) % 65536 - 32768

/-- `Math.min(1, Math.max(-1, f))` — the clamp used by `createPcmBlob`. -/
def clampQ (s : ℚ) : ℚ := min 1 (max (-1) s)

/-- Per-sample conversion performed by `createPcmBlob`
(src/utils/audioUtils.ts line 43): clamp, scale by 32767, store into an
`Int16Array` (ECMAScript `ToInt16`). -/
def pcmBlobSampleToInt16 (s : ℚ) : ℤ := toInt16 (ratTrunc (clampQ s * 32767))

/-- The conversion as the spec's words describe it (`round(clamp(s,-1,1) *
32767)`), for comparison with the code's `pcmBlobSampleToInt16`.
Spec-words definition, not taken from the source. -/
def pcmRoundSpec (s : ℚ) : ℤ := round (clampQ s * 32767)

/-- `s = Math.max(-1, Math.min(1, x))` — the clamp used by
`createWavBlobFromAudioBuffer` (line 172). -/
def clampWav (s : ℚ) : ℚ := max (-1) (min 1 s)

/-- Per-sample conversion performed by `createWavBlobFromAudioBuffer`
(lines 172-174): clamp, scale by 0x8000 when negative and 0x7FFF when
non-negative, store via `DataView.setInt16` (ECMAScript `ToInt16`). -/
def wavSampleToInt16 (s : ℚ) : ℤ :=
  toInt16 (ratTrunc (if clampWav s < 0 then clampWav s * 32768 else clampWav s * 32767))

/-- The scaled, clamped sample of the WAV conversion, before the integer
store. -/
def wavScaled (s : ℚ) : ℚ :=
  if clampWav s < 0 then clampWav s * 32768 else clampWav s * 32767

/-! ## The pacing-tick slicing loop (`src/services/geminiService.ts`, lines 85-116)

Each timer tick with `currentOffset < audioDataBuffer.length` executes
```
endOffset = Math.min(currentOffset + AUDIO_CHUNK_SIZE, audioDataBuffer.length);
chunk     = audioDataBuffer.slice(currentOffset, endOffset);
// send createPcmBlob(chunk)
currentOffset = endOffset; sentAudioLength = currentOffset;
onProgressUpdate((sentAudioLength / audioDataBuffer.length) * 100);
```
We embed the loop by structural recursion on the unsent suffix of the
buffer: when the suffix is `x :: rest` (offset `off = total - (x :: rest).length`),
the slice `[off, min (off + C) total)` is `x :: rest.take (C - 1)` and the
new offset `min (off + C) total` equals `total - (rest.drop (C - 1)).length`
(for the source's `C = AUDIO_CHUNK_SIZE ≥ 1`).  Each emitted pair is
(transmitted chunk, reported progress value). -/

/-- The chunk/progress emissions of the pacing loop, one list entry per
tick that still had unsent samples.  `C` is `AUDIO_CHUNK_SIZE`, `total`
is `audioDataBuffer.length`, and the argument is the unsent suffix. -/
def sendTicks (C total : Nat) : List ℚ → List (List ℚ × ℚ)
  | [] => []
  | x :: rest =>
      (x :: rest.take (C - 1),
        (((total - (rest.drop (C - 1)).length : ℕ) : ℚ) / (total : ℚ)) * 100)
        :: sendTicks C total (rest.drop (C - 1))
termination_by xs => xs.length
decreasing_by
  simp only [List.length_drop, List.length_cons]
  omega

/-! ## Resampling (`src/utils/audioUtils.ts`, lines 57-82) -/

/-- Web Audio `AudioBuffer`: sample rate, channel count, frame length, and
per-channel sample data. -/
structure AudioBuffer where
  sampleRate : ℚ
  numberOfChannels : Nat
  length : Nat
  channelData : List (List ℚ)
deriving DecidableEq

/-- `new OfflineAudioContext(numberOfChannels, length, sampleRate)` followed
by `startRendering()`: per the Web Audio specification the rendered buffer
has exactly the context's channel count, frame length and sample rate.  The
rendered sample values are produced by the platform's band-limited
resampler and are not specified exactly; no claim depends on them, so they
are modelled as zeros. -/
def renderOffline (numberOfChannels length : Nat) (sampleRate : ℚ) : AudioBuffer :=
  ⟨sampleRate, numberOfChannels, length,
    List.replicate numberOfChannels (List.replicate length 0)⟩

/-- `resampleAudioBuffer` (src/utils/audioUtils.ts lines 57-82): if the
source rate equals the target rate the input buffer itself is returned;
otherwise an `OfflineAudioContext` with
`resampledLength = Math.ceil(originalLength * (targetSampleRate / sourceSampleRate))`
renders the resampled buffer. -/
def resampleAudioBuffer (audioBuffer : AudioBuffer) (targetSampleRate : ℚ) : AudioBuffer :=
  if audioBuffer.sampleRate = targetSampleRate then
    audioBuffer
  else
    renderOffline audioBuffer.numberOfChannels
      (Nat.ceil ((audioBuffer.length : ℚ) * (targetSampleRate / audioBuffer.sampleRate)))
      targetSampleRate

/-! ## Base64 transport framing (`src/utils/audioUtils.ts`, lines 8-31)

`encode` builds a binary string whose character codes are exactly the bytes
of the `Uint8Array` (via `String.fromCharCode`) and applies the platform's
`btoa`; `decode` applies `atob` and reads the character codes back with
`charCodeAt`.  Binary strings are embedded as `List Nat` of byte values,
and `btoa` / `atob` are embedded by their specified behaviour on valid
inputs (RFC 4648 base64 over latin1 code units, `=`-padded). -/

/-- The 64-character base64 alphabet, as character codes:
`A`-`Z`, `a`-`z`, `0`-`9`, `+`, `/`. -/
def b64Alphabet : List Nat :=
  (List.range 26).map (fun i => 65 + i) ++
  (List.range 26).map (fun i => 97 + i) ++
  (List.range 10).map (fun i => 48 + i) ++
  [43, 47]

/-- Character code of the base64 digit for a 6-bit value. -/
def encB64 (n : Nat) : Nat := b64Alphabet.getD n 0

/-- 6-bit value of a base64 digit character code. -/
def decB64 (ch : Nat) : Nat := b64Alphabet.indexOf ch

/-- `btoa` on a byte list: emit one 4-character group per 3 input bytes,
`=`-padding (code 61) the final group when 1 or 2 bytes remain. -/
def btoaBytes : List Nat → List Nat
  | [] => []
  | [a] => [encB64 (a / 4), encB64 (a % 4 * 16), 61, 61]
  | [a, b] => [encB64 (a / 4), encB64 (a % 4 * 16 + b / 16), encB64 (b % 16 * 4), 61]
  | a :: b :: c :: rest =>
      encB64 (a / 4) :: encB64 (a % 4 * 16 + b / 16) ::
      encB64 (b % 16 * 4 + c / 64) :: encB64 (c % 64) :: btoaBytes rest

/-- `atob` on a (valid, `=`-padded) base64 character-code list: decode each
4-character group into 3 bytes, or fewer for a padded final group. -/
def atobBytes : List Nat → List Nat
  | c1 :: c2 :: c3 :: c4 :: rest =>
      if c3 = 61 then
        [decB64 c1 * 4 + decB64 c2 / 16]
      else if c4 = 61 then
        [decB64 c1 * 4 + decB64 c2 / 16, decB64 c2 % 16 * 16 + decB64 c3 / 4]
      else
        (decB64 c1 * 4 + decB64 c2 / 16) ::
        (decB64 c2 % 16 * 16 + decB64 c3 / 4) ::
        (decB64 c3 % 4 * 64 + decB64 c4) :: atobBytes rest
  | _ => []

/-- `encode` (src/utils/audioUtils.ts lines 24-31): bytes → binary string
(codes = bytes) → `btoa`. -/
def encode (bytes : List Nat) : List Nat := btoaBytes bytes

/-- `decode` (src/utils/audioUtils.ts lines 8-17): `atob` → bytes read
off the binary string's character codes. -/
def decode (base64 : List Nat) : List Nat := atobBytes base64

/-! ## Inbound transcription events (`src/services/geminiService.ts`, lines 118-161)

The `onmessage` callback keeps two pieces of state:
`finalTranscriptionSegments` (committed segments) and `latestNonFinalText`
(pending text).  On each message it appends `inputTranscription.text` (when
present) to the pending text; when the message carries `turnComplete` it
moves the *trimmed* pending text into the segments — but only when the
trimmed text is non-empty — and clears the pending buffer. -/

/-- JS whitespace for `String.prototype.trim` (the code points that occur
in practice: space, tab, LF, CR, VT, FF). -/
def isWS (ch : Char) : Bool :=
  ch == ' ' || ch == '\t' || ch == '\n' || ch == '\r' || ch == '\x0b' || ch == '\x0c'

/-- `String.prototype.trim`: drop whitespace from both ends. -/
def trimL (l : List Char) : List Char := List.rdropWhile isWS (List.dropWhile isWS l)

/-- An inbound live-server message, reduced to the two fields `onmessage`
reads: `serverContent.inputTranscription.text` and
`serverContent.turnComplete`. -/
structure LiveMsg where
  inputTranscription : Option (List Char)
  turnComplete : Bool
deriving DecidableEq

/-- The `onmessage` accumulator state: committed final segments and the
pending (non-final) text. -/
structure TranscriptState where
  segs : List (List Char)
  pending : List Char
deriving DecidableEq

/-- The text contributed by one message (empty when no
`inputTranscription` is present). -/
def textOf (m : LiveMsg) : List Char :=
  match m.inputTranscription with
  | some t => t
  | none => []

/-- The pending text after the append step of `onmessage`
(`latestNonFinalText += message.serverContent.inputTranscription.text`). -/
def pendingAfter (st : TranscriptState) (m : LiveMsg) : List Char :=
  match m.inputTranscription with
  | some t => st.pending ++ t
  | none => st.pending

/-- One `onmessage` invocation (lines 118-146; the UI callback at lines
148-160 reads but does not change this state). -/
def onMessage (st : TranscriptState) (m : LiveMsg) : TranscriptState :=
  let pending := pendingAfter st m
  if m.turnComplete then
    if trimL pending ≠ [] then
      { segs := st.segs ++ [trimL pending], pending := [] }
    else
      { segs := st.segs, pending := pending }
  else
    { segs := st.segs, pending := pending }

/-- Process a sequence of inbound messages in arrival order. -/
def runMsgs (st : TranscriptState) (ms : List LiveMsg) : TranscriptState :=
  ms.foldl onMessage st

/-- Session-start state: no segments, no pending text. -/
def initState : TranscriptState := ⟨[], []⟩

/-- Concatenation of all transcription text carried by a message list. -/
def concatTexts (ms : List LiveMsg) : List Char :=
  ms.foldl (fun acc m => acc ++ textOf m) []

/-! ## Session closure and resolution (`src/services/geminiService.ts`, lines 43-76 and 166-173)

`cleanup` clears the pacing interval and the fallback closure timeout (both
guarded, so it is safe to invoke repeatedly).  The transport's `onclose`
callback is the single resolution point: it joins the finalized segments
with `' '`, trims, runs `cleanup`, forces progress to 100 and resolves the
promise.  Per the ECMAScript promise specification, resolving an
already-settled promise is a no-op (no error, no second resolution) —
embedded in `resolvePromise`. -/

/-- The mutable session state visible to the cleanup/resolution code:
timer handles, the promise's settlement (`none` while pending), the last
reported progress, and the transcript accumulator. -/
structure SessionSt where
  intervalSet : Bool
  timeoutSet : Bool
  resolved : Option (List Char)
  progress : ℚ
  segs : List (List Char)
  pending : List Char
deriving DecidableEq

/-- `cleanup` (lines 43-55): clear both timers; already-cleared handles
are left alone (the `undefined` guards). -/
def cleanup (s : SessionSt) : SessionSt :=
  { s with intervalSet := false, timeoutSet := false }

/-- `resolve(...)` on the session's promise.  A promise settles at most
once: resolving an already-settled promise is a specified no-op. -/
def resolvePromise (s : SessionSt) (v : List Char) : SessionSt :=
  match s.resolved with
  | some _ => s
  | none => { s with resolved := some v }

/-- `finalTranscriptionSegments.join(' ')` of line 170. -/
def joinSpace (segs : List (List Char)) : List Char :=
  List.intercalate [' '] segs

/-- `cleanupAndResolve` (lines 71-76): `cleanup()`, then
`onProgressUpdate(100)`, then `resolve({ fullTranscription })`. -/
def cleanupAndResolve (s : SessionSt) (fullTranscription : List Char) : SessionSt :=
  resolvePromise { cleanup s with progress := 100 } fullTranscription

/-- The `onclose` callback (lines 166-173): compute
`finalTranscriptionSegments.join(' ').trim()` and resolve with it. -/
def onCloseHandler (s : SessionSt) : SessionSt :=
  cleanupAndResolve s (trimL (joinSpace s.segs))

/-! ## Single-shot Whisper adapter (`src/services/openaiService.ts`, lines 17-59)

`transcribeWithWhisper` reports progress 0, throws when the key is
missing, then issues one request.  On a success response it reports the
transcript (final) and progress 100; on a non-success response it throws
`OpenAI API error: <status> - <body>`, which the surrounding `catch`
converts into `onProgressUpdate(0)` followed by a wrapped rethrow.  The
fetch is embedded by its observable response, and the adapter by the
sequence of emitted callbacks plus its result. -/

/-- The backend's HTTP-style response as the adapter observes it. -/
structure FetchResponse where
  ok : Bool
  status : Nat
  body : List Char
deriving DecidableEq

/-- Observable outcome of one `transcribeWithWhisper` call: the
`onProgressUpdate` values in order, the `onTranscriptionUpdate` calls in
order, and the settlement (transcript or error message). -/
structure WhisperOutcome where
  progressEvents : List ℚ
  transcriptionUpdates : List (List Char × Bool)
  result : Except (List Char) (List Char)

/-- Message of the error thrown when no API key is supplied (line 26). -/
def missingKeyMsg : List Char :=
  "OpenAI API key is missing. Please provide your key to use Whisper.".toList

/-- Message of the error thrown on a non-success response (line 45). -/
def apiErrorMsg (status : Nat) (body : List Char) : List Char :=
  "OpenAI API error: ".toList ++ (toString status).toList ++ " - ".toList ++ body

/-- Message of the wrapped error rethrown by the `catch` block (line 57). -/
def whisperFailMsg (m : List Char) : List Char :=
  "Failed to transcribe with Whisper: ".toList ++ m

/-- `transcribeWithWhisper` (lines 17-59). -/
def transcribeWithWhisper (openaiApiKey : List Char) (resp : FetchResponse) : WhisperOutcome :=
  if openaiApiKey = [] then
    ⟨[0], [], Except.error missingKeyMsg⟩
  else if resp.ok then
    ⟨[0, 100], [(resp.body, true)], Except.ok resp.body⟩
  else
    ⟨[0, 0], [], Except.error (whisperFailMsg (apiErrorMsg resp.status resp.body))⟩

/-! ## Lemmas and claim theorems -/

/-! ### Basic facts about the conversion pieces -/

lemma clampQ_le_one (s : ℚ) : clampQ s ≤ 1 := min_le_left _ _

lemma neg_one_le_clampQ (s : ℚ) : -1 ≤ clampQ s :=
  le_min (by norm_num) (le_max_left _ _)

lemma clampQ_mono : Monotone clampQ := by
  intro a b hab
  exact min_le_min le_rfl (max_le_max le_rfl hab)

lemma clampWav_le_one (s : ℚ) : clampWav s ≤ 1 :=
  max_le (by norm_num) (min_le_left _ _)

lemma neg_one_le_clampWav (s : ℚ) : -1 ≤ clampWav s := le_max_left _ _

lemma clampWav_mono : Monotone clampWav := by
  intro a b hab
  exact max_le_max le_rfl (min_le_min le_rfl hab)

lemma ratTrunc_mono : Monotone ratTrunc := by
  intro a b hab
  unfold ratTrunc
  by_cases ha : 0 ≤ a
  · have hb : 0 ≤ b := le_trans ha hab
    simp only [ha, hb, if_true]
    exact Int.floor_le_floor hab
  · by_cases hb : 0 ≤ b
    · simp only [ha, hb, if_true, if_false]
      have h1 : (⌈a⌉ : ℤ) ≤ 0 := Int.ceil_le.mpr (by exact_mod_cast le_of_lt (not_le.mp ha))
      have h2 : (0 : ℤ) ≤ ⌊b⌋ := Int.floor_nonneg.mpr hb
      omega
    · simp only [ha, hb, if_false]
      exact Int.ceil_le_ceil hab

lemma ratTrunc_le_of_le {q : ℚ} {m : ℕ} (h : q ≤ (m : ℚ)) : ratTrunc q ≤ (m : ℤ) := by
  unfold ratTrunc
  split
  · have : (⌊q⌋ : ℚ) ≤ (m : ℚ) := le_trans (Int.floor_le q) h
    exact_mod_cast this
  · have : ⌈q⌉ ≤ ⌈(m : ℚ)⌉ := Int.ceil_le_ceil h
    simpa using this

lemma le_ratTrunc_of_le {q : ℚ} {m : ℕ} (h : -(m : ℚ) ≤ q) : -(m : ℤ) ≤ ratTrunc q := by
  unfold ratTrunc
  split
  · have h0 : (0 : ℤ) ≤ ⌊q⌋ := Int.floor_nonneg.mpr (by assumption)
    omega
  · have : ⌈-(m : ℚ)⌉ ≤ ⌈q⌉ := Int.ceil_le_ceil h
    have hm : ⌈-(m : ℚ)⌉ = -(m : ℤ) := by
      rw [Int.ceil_neg]
      simp
    omega

lemma toInt16_eq_self {n : ℤ} (h1 : -32768 ≤ n) (h2 : n ≤ 32767) : toInt16 n = n := by
  unfold toInt16
  omega

/-- The `createPcmBlob` conversion never wraps: it is exactly truncation of
the clamped, scaled sample. -/
lemma pcmBlobSampleToInt16_eq_trunc (s : ℚ) :
    pcmBlobSampleToInt16 s = ratTrunc (clampQ s * 32767) := by
  unfold pcmBlobSampleToInt16
  have hub : clampQ s * 32767 ≤ ((32767 : ℕ) : ℚ) := by
    have := clampQ_le_one s
    push_cast
    nlinarith
  have hlb : -((32767 : ℕ) : ℚ) ≤ clampQ s * 32767 := by
    have := neg_one_le_clampQ s
    push_cast
    nlinarith
  have h1 := ratTrunc_le_of_le hub
  have h2 := le_ratTrunc_of_le hlb
  exact toInt16_eq_self (by omega) (by omega)

lemma pcm_mono : Monotone pcmBlobSampleToInt16 := by
  intro a b hab
  rw [pcmBlobSampleToInt16_eq_trunc, pcmBlobSampleToInt16_eq_trunc]
  apply ratTrunc_mono
  have := clampQ_mono hab
  nlinarith

/-- The WAV conversion never wraps either: `ToInt16` is the identity on its
output, so it is exactly truncation of the clamped, scaled sample. -/
lemma wavSampleToInt16_eq_trunc (s : ℚ) :
    wavSampleToInt16 s = ratTrunc (wavScaled s) := by
  unfold wavSampleToInt16 wavScaled
  have h1 : -32768 ≤ ratTrunc (if clampWav s < 0 then clampWav s * 32768 else clampWav s * 32767) := by
    have hlb := neg_one_le_clampWav s
    split
    · have : -((32768 : ℕ) : ℚ) ≤ clampWav s * 32768 := by push_cast; nlinarith
      have := le_ratTrunc_of_le this
      omega
    · have : -((32767 : ℕ) : ℚ) ≤ clampWav s * 32767 := by push_cast; nlinarith
      have := le_ratTrunc_of_le this
      omega
  have h2 : ratTrunc (if clampWav s < 0 then clampWav s * 32768 else clampWav s * 32767) ≤ 32767 := by
    have hub := clampWav_le_one s
    split
    · rename_i hneg
      have : clampWav s * 32768 ≤ ((0 : ℕ) : ℚ) := by push_cast; nlinarith
      have := ratTrunc_le_of_le this
      omega
    · have : clampWav s * 32767 ≤ ((32767 : ℕ) : ℚ) := by push_cast; nlinarith
      have := ratTrunc_le_of_le this
      omega
  exact toInt16_eq_self h1 h2

lemma wavScaled_mono : Monotone wavScaled := by
  intro a b hab
  have hc := clampWav_mono hab
  unfold wavScaled
  by_cases ha : clampWav a < 0
  · by_cases hb : clampWav b < 0
    · simp only [ha, hb, if_true]
      nlinarith
    · simp only [ha, hb, if_true, if_false]
      push_neg at hb
      nlinarith
  · have hb : ¬ clampWav b < 0 := by push_neg at ha ⊢; exact le_trans ha hc
    simp only [ha, hb, if_false]
    push_neg at ha
    nlinarith

lemma wav_mono : Monotone wavSampleToInt16 := by
  intro a b hab
  rw [wavSampleToInt16_eq_trunc, wavSampleToInt16_eq_trunc]
  exact ratTrunc_mono (wavScaled_mono hab)

/-- **C3 (corrected), counterexample.** The claim states the
`createPcmBlob` conversion equals `round(clamp(s, -1, 1) * 32767)`.
It does not: an `Int16Array` element store truncates toward zero rather
than rounding. At `s = 1/2` the code produces `⌊16383.5⌋ = 16383` while
the claimed rounding produces `16384`. -/
theorem pcm_round_counterexample :
    pcmBlobSampleToInt16 (1 / 2) = 16383 ∧ pcmRoundSpec (1 / 2) = 16384 := by
  constructor
  · rw [pcmBlobSampleToInt16_eq_trunc]
    have hc : clampQ (1 / 2) = 1 / 2 := by
      unfold clampQ
      norm_num
    rw [hc]
    unfold ratTrunc
    norm_num
  · unfold pcmRoundSpec clampQ
    norm_num [round_eq]

/-- **C3 (amended).** For every sample `s`, the `createPcmBlob` 16-bit
conversion equals `trunc(clamp(s, -1, 1) * 32767)` (truncation toward
zero, the `Int16Array` store semantics); in particular `s = 1` maps to
`32767`, `s = -1` maps to `-32767` (symmetric scale), and the mapping is
monotonically non-decreasing in `s`. -/
theorem pcm_conversion_amended :
    (∀ s : ℚ, pcmBlobSampleToInt16 s = ratTrunc (clampQ s * 32767)) ∧
    pcmBlobSampleToInt16 1 = 32767 ∧
    pcmBlobSampleToInt16 (-1) = -32767 ∧
    Monotone pcmBlobSampleToInt16 := by
  refine ⟨pcmBlobSampleToInt16_eq_trunc, ?_, ?_, pcm_mono⟩
  · rw [pcmBlobSampleToInt16_eq_trunc]
    have hc : clampQ 1 = 1 := by unfold clampQ; norm_num
    rw [hc]
    unfold ratTrunc
    norm_num
  · rw [pcmBlobSampleToInt16_eq_trunc]
    have hc : clampQ (-1) = -1 := by unfold clampQ; norm_num
    rw [hc]
    unfold ratTrunc
    norm_num
    have hcast : ((-32767 : ℤ) : ℚ) = -32767 := by norm_num
    rw [← hcast]
    exact Int.ceil_intCast _

/-- **C4.** For every sample `s`, the single-shot WAV encoder's 16-bit
conversion first clamps `s` to `[-1, 1]`, then scales by `0x8000` when the
clamped value is negative and by `0x7FFF` otherwise (then stores the
truncated value, which never wraps); in particular `s = -1` maps to
`-32768`, `s = 1` maps to `32767`, and the mapping is monotonically
non-decreasing in `s`. -/
theorem wav_conversion_spec :
    (∀ s : ℚ, wavSampleToInt16 s =
      ratTrunc (if clampWav s < 0 then clampWav s * 32768 else clampWav s * 32767)) ∧
    wavSampleToInt16 (-1) = -32768 ∧
    wavSampleToInt16 1 = 32767 ∧
    Monotone wavSampleToInt16 := by
  refine ⟨fun s => wavSampleToInt16_eq_trunc s, ?_, ?_, wav_mono⟩
  · rw [wavSampleToInt16_eq_trunc]
    have hc : clampWav (-1) = -1 := by unfold clampWav; norm_num
    unfold wavScaled
    rw [hc]
    norm_num
    unfold ratTrunc
    norm_num
    have hcast : ((-32768 : ℤ) : ℚ) = -32768 := by norm_num
    rw [← hcast]
    exact Int.ceil_intCast _
  · rw [wavSampleToInt16_eq_trunc]
    have hc : clampWav 1 = 1 := by unfold clampWav; norm_num
    unfold wavScaled
    rw [hc]
    norm_num
    unfold ratTrunc
    norm_num

/-- Strong induction on list length, used for the `sendTicks` lemmas whose
recursive call drops `C - 1` elements at a time. -/
lemma length_strong_ind {α : Type} {P : List α → Prop}
    (h : ∀ xs : List α, (∀ ys : List α, ys.length < xs.length → P ys) → P xs) :
    ∀ xs : List α, P xs := by
  have key : ∀ N : Nat, ∀ xs : List α, xs.length ≤ N → P xs := by
    intro N
    induction N with
    | zero =>
      intro xs h0
      apply h
      intro ys hy
      omega
    | succ N ih =>
      intro xs hx
      apply h
      intro ys hy
      exact ih ys (by omega)
  exact fun xs => key xs.length xs le_rfl

lemma sendTicks_nil (C total : Nat) : sendTicks C total [] = [] := by
  simp [sendTicks]

lemma sendTicks_cons (C total : Nat) (x : ℚ) (rest : List ℚ) :
    sendTicks C total (x :: rest) =
      (x :: rest.take (C - 1),
        (((total - (rest.drop (C - 1)).length : ℕ) : ℚ) / (total : ℚ)) * 100)
        :: sendTicks C total (rest.drop (C - 1)) := by
  simp [sendTicks]

/-- Concatenating the emitted chunks in emission order reconstructs the
input exactly. -/
lemma sendTicks_flatten (C total : Nat) :
    ∀ xs : List ℚ, ((sendTicks C total xs).map Prod.fst).flatten = xs := by
  apply length_strong_ind
  intro xs IH
  cases xs with
  | nil => simp [sendTicks_nil]
  | cons x rest =>
    rw [sendTicks_cons]
    have hlt : (rest.drop (C - 1)).length < (x :: rest).length := by
      simp only [List.length_drop, List.length_cons]
      omega
    simp only [List.map_cons, List.flatten_cons, IH _ hlt]
    simp [List.take_append_drop]

/-- Splitting off one chunk partitions the unsent suffix: the chunk and
the remaining suffix together have the length of the input suffix. -/
lemma chunk_split_len (C : Nat) (x : ℚ) (rest : List ℚ) :
    (x :: rest.take (C - 1)).length + (rest.drop (C - 1)).length = (x :: rest).length := by
  have happ : (x :: rest.take (C - 1)) ++ rest.drop (C - 1) = x :: rest := by
    simp [List.take_append_drop]
  have h := congrArg List.length happ
  rw [List.length_append] at h
  exact h

lemma drop_chunk (C : Nat) (hC : 1 ≤ C) (x : ℚ) (rest : List ℚ) :
    (x :: rest).drop C = rest.drop (C - 1) := by
  cases C with
  | zero => omega
  | succ c => simp [List.drop_succ_cons]

lemma drop_chunk_step (C : Nat) (hC : 1 ≤ C) (k : Nat) (x : ℚ) (rest : List ℚ) :
    (rest.drop (C - 1)).drop ((k + 1) * C) = (x :: rest).drop ((k + 1 + 1) * C) := by
  rw [List.drop_drop]
  have hs : (k + 1 + 1) * C = (k + 1) * C + C := Nat.succ_mul (k + 1) C
  have hidx : (k + 1 + 1) * C = ((C - 1) + (k + 1) * C) + 1 := by omega
  rw [hidx, List.drop_succ_cons]

/-- The number of emitted chunks `L` satisfies `N ≤ L·C < N + C`, i.e.
`L = ⌈N/C⌉`. -/
lemma sendTicks_len_bounds {C : Nat} (total : Nat) (hC : 1 ≤ C) :
    ∀ xs : List ℚ,
      xs.length ≤ (sendTicks C total xs).length * C ∧
      (sendTicks C total xs).length * C < xs.length + C := by
  apply length_strong_ind
  intro xs IH
  cases xs with
  | nil =>
    rw [sendTicks_nil]
    simp
    omega
  | cons x rest =>
    rw [sendTicks_cons]
    cases hrest : rest.drop (C - 1) with
    | nil =>
      have hlen : rest.length ≤ C - 1 := List.drop_eq_nil_iff.mp hrest
      rw [sendTicks_nil]
      simp only [List.length_cons, List.length_nil]
      omega
    | cons y t =>
      have hlt : (rest.drop (C - 1)).length < (x :: rest).length := by
        simp only [List.length_drop, List.length_cons]
        omega
      have h2 := IH _ hlt
      rw [hrest] at h2
      have hL := congrArg List.length hrest
      simp only [List.length_drop, List.length_cons] at hL
      simp only [List.length_cons] at h2 ⊢
      have hs : ((sendTicks C total (y :: t)).length + 1) * C =
          (sendTicks C total (y :: t)).length * C + C := Nat.succ_mul _ C
      rw [hs]
      omega

/-- The progress value of the `k`-th emission (0-indexed) is
`(total - |suffix remaining after k+1 chunks|) / total * 100`. -/
lemma sendTicks_getq_snd {C : Nat} (total : Nat) (hC : 1 ≤ C) :
    ∀ (xs : List ℚ) (k : Nat), k < (sendTicks C total xs).length →
      ((sendTicks C total xs)[k]?.map Prod.snd) =
        some ((((total - (xs.drop ((k + 1) * C)).length : ℕ) : ℚ) / (total : ℚ)) * 100) := by
  apply length_strong_ind
  intro xs IH
  cases xs with
  | nil =>
    intro k h
    rw [sendTicks_nil] at h
    simp at h
  | cons x rest =>
    intro k h
    have hlt : (rest.drop (C - 1)).length < (x :: rest).length := by
      simp only [List.length_drop, List.length_cons]
      omega
    cases k with
    | zero =>
      rw [sendTicks_cons]
      simp only [List.getElem?_cons_zero, Option.map_some']
      rw [Nat.zero_add, one_mul, drop_chunk C hC]
    | succ k =>
      have h' : k < (sendTicks C total (rest.drop (C - 1))).length := by
        rw [sendTicks_cons] at h
        simpa using h
      rw [sendTicks_cons]
      simp only [List.getElem?_cons_succ]
      rw [IH _ hlt k h', drop_chunk_step C hC k x rest]

/-- The total number of samples across the first `k+1` emitted chunks is
the length of the consumed part of the input. -/
lemma sendTicks_take_sum {C : Nat} (total : Nat) (hC : 1 ≤ C) :
    ∀ (xs : List ℚ) (k : Nat),
      ((((sendTicks C total xs).take (k + 1)).map (fun t => t.fst.length)).sum) =
        xs.length - (xs.drop ((k + 1) * C)).length := by
  apply length_strong_ind
  intro xs IH
  cases xs with
  | nil =>
    intro k
    simp [sendTicks_nil]
  | cons x rest =>
    intro k
    have hlt : (rest.drop (C - 1)).length < (x :: rest).length := by
      simp only [List.length_drop, List.length_cons]
      omega
    have hsplit := chunk_split_len C x rest
    cases k with
    | zero =>
      rw [sendTicks_cons]
      simp only [List.take_succ_cons, List.take_zero, List.map_cons, List.map_nil,
        List.sum_cons, List.sum_nil]
      rw [Nat.zero_add, one_mul, drop_chunk C hC]
      simp only [List.length_cons] at hsplit ⊢
      omega
    | succ k =>
      rw [sendTicks_cons]
      simp only [List.take_succ_cons, List.map_cons, List.sum_cons]
      rw [IH _ hlt k, drop_chunk_step C hC k x rest]
      have hd1 : ((x :: rest).drop ((k + 1 + 1) * C)).length ≤ (rest.drop (C - 1)).length := by
        rw [← drop_chunk_step C hC k x rest]
        simp only [List.length_drop]
        omega
      simp only [List.length_cons] at hsplit ⊢
      omega

lemma sendTicks_ne_nil (C total : Nat) (x : ℚ) (rest : List ℚ) :
    sendTicks C total (x :: rest) ≠ [] := by
  rw [sendTicks_cons]
  simp

/-- Every emitted chunk except possibly the last has exactly `C` samples. -/
lemma sendTicks_dropLast_len {C : Nat} (total : Nat) (hC : 1 ≤ C) :
    ∀ xs : List ℚ,
      ∀ l ∈ ((sendTicks C total xs).map Prod.fst).dropLast, l.length = C := by
  apply length_strong_ind
  intro xs IH
  cases xs with
  | nil =>
    simp [sendTicks_nil]
  | cons x rest =>
    intro l hl
    have hlt : (rest.drop (C - 1)).length < (x :: rest).length := by
      simp only [List.length_drop, List.length_cons]
      omega
    rw [sendTicks_cons] at hl
    cases hrest : rest.drop (C - 1) with
    | nil =>
      rw [hrest, sendTicks_nil] at hl
      simp at hl
    | cons y t =>
      have hne : (sendTicks C total (y :: t)).map Prod.fst ≠ [] := by
        rw [sendTicks_cons]
        simp
      rw [hrest] at hl
      simp only [List.map_cons] at hl
      rw [List.dropLast_cons_of_ne_nil hne] at hl
      rcases List.mem_cons.mp hl with rfl | hmem
      · have hlen : (C - 1) ≤ rest.length := by
          by_contra hcon
          push_neg at hcon
          have : rest.drop (C - 1) = [] := List.drop_eq_nil_of_le (by omega)
          rw [hrest] at this
          simp at this
        have hsplit := chunk_split_len C x rest
        have hdl : (rest.drop (C - 1)).length = rest.length - (C - 1) := List.length_drop _ _
        rw [hdl] at hsplit
        simp only [List.length_cons] at hsplit ⊢
        omega
      · rw [← hrest] at hmem
        exact IH _ hlt l hmem

/-- **C2.** For every non-empty sample array, the pacing-tick slicing loop
emits exactly `⌈N / AUDIO_CHUNK_SIZE⌉` chunks; each chunk except possibly
the last has exactly `AUDIO_CHUNK_SIZE` samples; and the concatenation of
the chunks in emission order equals the original sample array exactly. -/
theorem packetizer_chunks (xs : List ℚ) (hne : xs ≠ []) :
    (((sendTicks AUDIO_CHUNK_SIZE xs.length xs).map Prod.fst).flatten = xs) ∧
    ((sendTicks AUDIO_CHUNK_SIZE xs.length xs).map Prod.fst).length =
      Nat.ceil ((xs.length : ℚ) / (AUDIO_CHUNK_SIZE : ℚ)) ∧
    (∀ l ∈ ((sendTicks AUDIO_CHUNK_SIZE xs.length xs).map Prod.fst).dropLast,
      l.length = AUDIO_CHUNK_SIZE) := by
  have hC : 1 ≤ AUDIO_CHUNK_SIZE := by unfold AUDIO_CHUNK_SIZE; omega
  refine ⟨sendTicks_flatten _ _ xs, ?_, sendTicks_dropLast_len _ hC xs⟩
  have hb := sendTicks_len_bounds (C := AUDIO_CHUNK_SIZE) xs.length hC xs
  rw [List.length_map]
  set L := (sendTicks AUDIO_CHUNK_SIZE xs.length xs).length with hL
  have hN : 1 ≤ xs.length := by
    cases xs with
    | nil => exact absurd rfl hne
    | cons a t => simp
  unfold AUDIO_CHUNK_SIZE at hb ⊢
  have hLpos : L ≠ 0 := by
    intro h0
    rw [h0] at hb
    omega
  symm
  rw [Nat.ceil_eq_iff hLpos]
  constructor
  · rw [lt_div_iff₀ (show (0 : ℚ) < ((4096 : ℕ) : ℚ) by norm_num)]
    have h1 : (L - 1) * 4096 < xs.length := by omega
    exact_mod_cast h1
  · rw [div_le_iff₀ (show (0 : ℚ) < ((4096 : ℕ) : ℚ) by norm_num)]
    have h1 : xs.length ≤ L * 4096 := hb.1
    exact_mod_cast h1

/-- **C6.** On every pacing tick in which unsent samples remained, the
progress reported after transmitting is exactly
`sentSamples / totalSamples * 100` where `sentSamples` is the total number
of samples transmitted so far; in particular, for a 163840-sample buffer
packetized at chunk size 4096, the progress reported after the 20th chunk
is 50. -/
theorem pacing_progress (xs : List ℚ) (k : Nat)
    (h : k < (sendTicks AUDIO_CHUNK_SIZE xs.length xs).length) :
    ((sendTicks AUDIO_CHUNK_SIZE xs.length xs).get ⟨k, h⟩).snd =
      (((((sendTicks AUDIO_CHUNK_SIZE xs.length xs).take (k + 1)).map
        (fun t => t.fst.length)).sum : ℕ) : ℚ) / (xs.length : ℚ) * 100 ∧
    ((sendTicks AUDIO_CHUNK_SIZE 163840 (List.replicate 163840 (0 : ℚ))).getD 19 ([], 0)).snd = 50 := by
  have hC : 1 ≤ AUDIO_CHUNK_SIZE := by unfold AUDIO_CHUNK_SIZE; omega
  constructor
  · have hx := sendTicks_getq_snd xs.length hC xs k h
    rw [List.getElem?_eq_getElem h] at hx
    simp only [Option.map_some'] at hx
    have hx2 := Option.some.inj hx
    rw [sendTicks_take_sum xs.length hC xs k, List.get_eq_getElem, hx2]
  · have hlen : (List.replicate 163840 (0 : ℚ)).length = 163840 := List.length_replicate _ _
    have hb := sendTicks_len_bounds (C := AUDIO_CHUNK_SIZE) 163840 hC (List.replicate 163840 (0 : ℚ))
    rw [hlen] at hb
    unfold AUDIO_CHUNK_SIZE at hb
    have h19 : 19 < (sendTicks AUDIO_CHUNK_SIZE 163840 (List.replicate 163840 (0 : ℚ))).length := by
      unfold AUDIO_CHUNK_SIZE
      omega
    have hx := sendTicks_getq_snd 163840 hC (List.replicate 163840 (0 : ℚ)) 19 h19
    rw [List.getElem?_eq_getElem h19] at hx
    simp only [Option.map_some'] at hx
    have hx2 := Option.some.inj hx
    rw [List.getD_eq_getElem _ _ h19, hx2]
    have hd : ((List.replicate 163840 (0 : ℚ)).drop ((19 + 1) * AUDIO_CHUNK_SIZE)).length = 81920 := by
      simp only [List.length_drop, hlen]
      unfold AUDIO_CHUNK_SIZE
      norm_num
    rw [hd]
    norm_num

/-- Witness for **C2**: the singleton sample array `[1]` yields one chunk
equal to `[1]`. -/
theorem packetizer_chunks_witness :
    (((sendTicks AUDIO_CHUNK_SIZE [(1 : ℚ)].length [(1 : ℚ)]).map Prod.fst).flatten = [(1 : ℚ)]) ∧
    ((sendTicks AUDIO_CHUNK_SIZE [(1 : ℚ)].length [(1 : ℚ)]).map Prod.fst).length =
      Nat.ceil (([(1 : ℚ)].length : ℚ) / (AUDIO_CHUNK_SIZE : ℚ)) ∧
    (∀ l ∈ ((sendTicks AUDIO_CHUNK_SIZE [(1 : ℚ)].length [(1 : ℚ)]).map Prod.fst).dropLast,
      l.length = AUDIO_CHUNK_SIZE) :=
  packetizer_chunks [(1 : ℚ)] (by simp)

/-- Witness for **C6**: at the singleton buffer `[0]` the first tick exists
and reports the correct progress; the 163840-sample scenario reports 50
after the 20th chunk. -/
theorem pacing_progress_witness :
    0 < (sendTicks AUDIO_CHUNK_SIZE [(0 : ℚ)].length [(0 : ℚ)]).length ∧
    ((sendTicks AUDIO_CHUNK_SIZE 163840 (List.replicate 163840 (0 : ℚ))).getD 19 ([], 0)).snd = 50 := by
  have h : 0 < (sendTicks AUDIO_CHUNK_SIZE [(0 : ℚ)].length [(0 : ℚ)]).length := by
    rw [sendTicks_cons]
    simp
  exact ⟨h, (pacing_progress [(0 : ℚ)] 0 h).2⟩

/-- **C1.** If the source sample rate equals the target rate,
`resampleAudioBuffer` returns the input buffer itself unchanged; otherwise
it returns a buffer with the same channel count whose length is
`ceil(originalLength * targetRate / sourceRate)`. -/
theorem resample_identity_and_shape (b : AudioBuffer) (r : ℚ) :
    (b.sampleRate = r → resampleAudioBuffer b r = b) ∧
    (b.sampleRate ≠ r →
      (resampleAudioBuffer b r).numberOfChannels = b.numberOfChannels ∧
      (resampleAudioBuffer b r).length = Nat.ceil ((b.length : ℚ) * (r / b.sampleRate))) := by
  constructor
  · intro h
    unfold resampleAudioBuffer
    rw [if_pos h]
  · intro h
    unfold resampleAudioBuffer
    rw [if_neg h]
    exact ⟨rfl, rfl⟩

/-- Witness for **C1**: a 441-frame buffer at 44100 Hz resampled to
16000 Hz has `⌈441 · 16000/44100⌉ = 160` frames; resampling at the source
rate returns the buffer itself. -/
theorem resample_identity_and_shape_witness :
    (resampleAudioBuffer (AudioBuffer.mk 44100 1 441 [List.replicate 441 0]) 16000).length = 160 ∧
    resampleAudioBuffer (AudioBuffer.mk 44100 1 441 [List.replicate 441 0]) 44100 =
      AudioBuffer.mk 44100 1 441 [List.replicate 441 0] := by
  constructor
  · have h := (resample_identity_and_shape (AudioBuffer.mk 44100 1 441 [List.replicate 441 0]) 16000).2
      (by norm_num)
    rw [h.2]
    have harg : (((AudioBuffer.mk 44100 1 441 [List.replicate 441 0]).length : ℚ) *
        (16000 / (AudioBuffer.mk 44100 1 441 [List.replicate 441 0]).sampleRate)) = 160 := by
      norm_num
    rw [harg]
    simp
  · exact (resample_identity_and_shape (AudioBuffer.mk 44100 1 441 [List.replicate 441 0]) 44100).1 rfl

/-- Decoding inverts encoding on each 6-bit value, and no alphabet
character is the padding character `=` (code 61). -/
lemma decB64_encB64 : ∀ n, n < 64 → decB64 (encB64 n) = n ∧ encB64 n ≠ 61 := by
  decide

/-- Core of the round trip: `atob (btoa bytes) = bytes` for byte values. -/
lemma atob_btoa : ∀ xs : List Nat, (∀ x ∈ xs, x < 256) → atobBytes (btoaBytes xs) = xs := by
  apply length_strong_ind
  intro xs IH hb
  match xs, hb with
  | [], _ => simp [btoaBytes, atobBytes]
  | [a], hb =>
    have ha : a < 256 := hb a (by simp)
    have h1 := decB64_encB64 (a / 4) (by omega)
    have h2 := decB64_encB64 (a % 4 * 16) (by omega)
    simp only [btoaBytes, atobBytes, if_true]
    rw [h1.1, h2.1]
    have e1 : a / 4 * 4 + a % 4 * 16 / 16 = a := by omega
    rw [e1]
  | [a, b], hb =>
    have ha : a < 256 := hb a (by simp)
    have hbb : b < 256 := hb b (by simp)
    have h1 := decB64_encB64 (a / 4) (by omega)
    have h2 := decB64_encB64 (a % 4 * 16 + b / 16) (by omega)
    have h3 := decB64_encB64 (b % 16 * 4) (by omega)
    simp only [btoaBytes, atobBytes]
    rw [if_neg h3.2]
    simp only [if_true]
    rw [h1.1, h2.1, h3.1]
    have e1 : a / 4 * 4 + (a % 4 * 16 + b / 16) / 16 = a := by omega
    have e2 : (a % 4 * 16 + b / 16) % 16 * 16 + b % 16 * 4 / 4 = b := by omega
    rw [e1, e2]
  | a :: b :: c :: rest, hb =>
    have ha : a < 256 := hb a (by simp)
    have hbb : b < 256 := hb b (by simp)
    have hc : c < 256 := hb c (by simp)
    have h1 := decB64_encB64 (a / 4) (by omega)
    have h2 := decB64_encB64 (a % 4 * 16 + b / 16) (by omega)
    have h3 := decB64_encB64 (b % 16 * 4 + c / 64) (by omega)
    have h4 := decB64_encB64 (c % 64) (by omega)
    have hrest : atobBytes (btoaBytes rest) = rest := by
      apply IH rest (by simp only [List.length_cons]; omega)
      intro x hx
      exact hb x (by simp [hx])
    simp only [btoaBytes, atobBytes]
    rw [if_neg h3.2, if_neg h4.2, h1.1, h2.1, h3.1, h4.1, hrest]
    have e1 : a / 4 * 4 + (a % 4 * 16 + b / 16) / 16 = a := by omega
    have e2 : (a % 4 * 16 + b / 16) % 16 * 16 + (b % 16 * 4 + c / 64) / 4 = b := by omega
    have e3 : (b % 16 * 4 + c / 64) % 4 * 64 + c % 64 = c := by omega
    rw [e1, e2, e3]

/-- **C5.** The byte-to-string transport framing is lossless: for every
byte array `b` (all values < 256), `decode (encode b) = b`, a
`Uint8Array` of the same length and contents. -/
theorem base64_roundtrip (bs : List Nat) (hb : ∀ x ∈ bs, x < 256) :
    decode (encode bs) = bs ∧ (decode (encode bs)).length = bs.length := by
  have h : decode (encode bs) = bs := atob_btoa bs hb
  exact ⟨h, by rw [h]⟩

/-- Witness for **C5**: the bytes `[0, 77, 255]` survive the round trip. -/
theorem base64_roundtrip_witness :
    decode (encode [0, 77, 255]) = [0, 77, 255] ∧
    (decode (encode [0, 77, 255])).length = [0, 77, 255].length :=
  base64_roundtrip [0, 77, 255] (by decide)

lemma pendingAfter_eq (st : TranscriptState) (m : LiveMsg) :
    pendingAfter st m = st.pending ++ textOf m := by
  unfold pendingAfter textOf
  cases m.inputTranscription <;> simp

lemma runMsgs_nil (st : TranscriptState) : runMsgs st [] = st := rfl

lemma runMsgs_cons (st : TranscriptState) (m : LiveMsg) (ms : List LiveMsg) :
    runMsgs st (m :: ms) = runMsgs (onMessage st m) ms := rfl

lemma concatTexts_go (ms : List LiveMsg) (a : List Char) :
    ms.foldl (fun acc m => acc ++ textOf m) a = a ++ concatTexts ms := by
  induction ms generalizing a with
  | nil => simp [concatTexts]
  | cons m ms ih =>
    show List.foldl _ (a ++ textOf m) ms = a ++ concatTexts (m :: ms)
    rw [ih]
    have h2 : concatTexts (m :: ms) = textOf m ++ concatTexts ms := by
      unfold concatTexts
      simp only [List.foldl_cons, List.nil_append]
      exact ih (textOf m)
    rw [h2, List.append_assoc]

lemma concatTexts_cons (m : LiveMsg) (ms : List LiveMsg) :
    concatTexts (m :: ms) = textOf m ++ concatTexts ms := by
  unfold concatTexts
  simp only [List.foldl_cons, List.nil_append]
  exact concatTexts_go ms (textOf m)

/-- Running messages that carry no turn boundary only extends the pending
text; the committed segments are untouched. -/
lemma runMsgs_no_turn (ms : List LiveMsg) :
    ∀ st : TranscriptState, (∀ m ∈ ms, m.turnComplete = false) →
      runMsgs st ms = ⟨st.segs, st.pending ++ concatTexts ms⟩ := by
  induction ms with
  | nil =>
    intro st h
    cases st
    simp [runMsgs_nil, concatTexts]
  | cons m ms ih =>
    intro st h
    have hm : m.turnComplete = false := h m (by simp)
    have hms : ∀ x ∈ ms, x.turnComplete = false := fun x hx => h x (by simp [hx])
    rw [runMsgs_cons]
    have hon : onMessage st m = ⟨st.segs, pendingAfter st m⟩ := by
      simp [onMessage, hm]
    rw [hon, ih _ hms, pendingAfter_eq, concatTexts_cons, List.append_assoc]

lemma onMessage_turn (st : TranscriptState) (m : LiveMsg) (hm : m.turnComplete = true) :
    onMessage st m =
      if trimL (pendingAfter st m) = [] then ⟨st.segs, pendingAfter st m⟩
      else ⟨st.segs ++ [trimL (pendingAfter st m)], []⟩ := by
  by_cases hp : trimL (pendingAfter st m) = []
  · simp [onMessage, hm, hp]
  · simp [onMessage, hm, hp]

/-- **C7 (counterexample).** The claim says a session receiving events of
which exactly one is a turn boundary commits exactly one finalized
segment.  A session whose only event carries whitespace-only text and the
turn boundary commits none: the trim guard discards it. -/
theorem single_turn_counterexample :
    (runMsgs initState [LiveMsg.mk (some [' ']) true]).segs = [] := by
  decide

/-- **C7 (amended).** For a session receiving events of which exactly one
carries the turn boundary: when the concatenation of all transcription
text accumulated up to and including the boundary event is non-whitespace,
exactly one segment is committed, equal to that concatenation trimmed;
when it is empty or whitespace-only, no segment is committed. -/
theorem single_turn_single_segment (pre post : List LiveMsg) (e : LiveMsg)
    (h1 : ∀ m ∈ pre, m.turnComplete = false) (h2 : e.turnComplete = true)
    (h3 : ∀ m ∈ post, m.turnComplete = false) :
    (runMsgs initState (pre ++ e :: post)).segs =
      if trimL (concatTexts pre ++ textOf e) = [] then []
      else [trimL (concatTexts pre ++ textOf e)] := by
  have hsplit : runMsgs initState (pre ++ e :: post) =
      runMsgs (onMessage (runMsgs initState pre) e) post := by
    unfold runMsgs
    rw [List.foldl_append]
    rfl
  rw [hsplit, runMsgs_no_turn pre initState h1]
  have hpend : pendingAfter ⟨initState.segs, initState.pending ++ concatTexts pre⟩ e =
      concatTexts pre ++ textOf e := by
    rw [pendingAfter_eq]
    simp [initState]
  rw [onMessage_turn _ _ h2, hpend]
  by_cases hp : trimL (concatTexts pre ++ textOf e) = []
  · rw [if_pos hp, if_pos hp, runMsgs_no_turn post _ h3]
    simp [initState]
  · rw [if_neg hp, if_neg hp, runMsgs_no_turn post _ h3]
    simp [initState]

/-- Witness for **C7 (amended)**: `"hi"` then a boundary carrying `" yo"`
commits the single segment `"hi yo"`. -/
theorem single_turn_single_segment_witness :
    (runMsgs initState
        ([LiveMsg.mk (some ['h', 'i']) false] ++ LiveMsg.mk (some [' ', 'y', 'o']) true :: [])).segs =
      if trimL (concatTexts [LiveMsg.mk (some ['h', 'i']) false] ++
          textOf (LiveMsg.mk (some [' ', 'y', 'o']) true)) = [] then []
      else
        [trimL (concatTexts [LiveMsg.mk (some ['h', 'i']) false] ++
          textOf (LiveMsg.mk (some [' ', 'y', 'o']) true))] :=
  single_turn_single_segment [LiveMsg.mk (some ['h', 'i']) false] []
    (LiveMsg.mk (some [' ', 'y', 'o']) true) (by simp) rfl (by simp)

/-! ### The finalized-segment invariant (C10) -/

lemma dropWhile_cons_head {α : Type} (p : α → Bool) (l : List α) (a : α) (as : List α)
    (h : List.dropWhile p l = a :: as) : p a = false := by
  have hid : List.dropWhile p (List.dropWhile p l) = List.dropWhile p l :=
    List.dropWhile_idempotent p l
  rw [h] at hid
  by_cases hpa : p a
  · rw [List.dropWhile_cons_of_pos hpa] at hid
    have hlen := congrArg List.length hid
    have hle : (List.dropWhile p as).length ≤ as.length := (List.dropWhile_suffix p).length_le
    simp only [List.length_cons] at hlen
    omega
  · simpa using hpa

/-- `trim` is idempotent: a trimmed string has no leading or trailing
whitespace left. -/
lemma trimL_idem (l : List Char) : trimL (trimL l) = trimL l := by
  unfold trimL
  have h1 : List.dropWhile isWS (List.rdropWhile isWS (List.dropWhile isWS l)) =
      List.rdropWhile isWS (List.dropWhile isWS l) := by
    cases hB : List.rdropWhile isWS (List.dropWhile isWS l) with
    | nil => simp
    | cons b bs =>
      have hpre : List.rdropWhile isWS (List.dropWhile isWS l) <+: List.dropWhile isWS l :=
        List.rdropWhile_prefix isWS (List.dropWhile isWS l)
      rw [hB] at hpre
      obtain ⟨t, ht⟩ := hpre
      have hAcons : List.dropWhile isWS l = b :: (bs ++ t) := by
        rw [← ht]
        simp
      have hb : isWS b = false := dropWhile_cons_head isWS l b (bs ++ t) hAcons
      rw [List.dropWhile_cons_of_neg (by simp [hb])]
  rw [h1, List.rdropWhile_idempotent]

/-- Committing a message preserves the invariant that every committed
segment is trimmed and non-empty. -/
lemma onMessage_preserves (st : TranscriptState) (m : LiveMsg)
    (hseg : ∀ s ∈ st.segs, trimL s = s ∧ s ≠ []) :
    ∀ s ∈ (onMessage st m).segs, trimL s = s ∧ s ≠ [] := by
  intro s hs
  unfold onMessage at hs
  cases hm : m.turnComplete with
  | false =>
    rw [hm] at hs
    simp only [Bool.false_eq_true, if_false] at hs
    exact hseg s hs
  | true =>
    rw [hm] at hs
    simp only [if_true] at hs
    by_cases hp : trimL (pendingAfter st m) = []
    · simp only [hp, ne_eq, not_true_eq_false, if_false] at hs
      exact hseg s hs
    · simp only [ne_eq, hp, not_false_eq_true, if_true] at hs
      rcases List.mem_append.mp hs with hold | hnew
      · exact hseg s hold
      · have hs2 : s = trimL (pendingAfter st m) := by simpa using hnew
        subst hs2
        exact ⟨trimL_idem _, hp⟩

/-- **C10.** At a turn boundary, pending text that is empty or
whitespace-only is discarded rather than committed; consequently every
finalized segment of a session run from a state whose segments satisfy the
invariant is trimmed and non-empty (so the final joined transcription
gets no doubled separators from empty segments). -/
theorem finalized_segments_nonempty (st : TranscriptState) (m : LiveMsg) (ms : List LiveMsg)
    (hseg : ∀ s ∈ st.segs, trimL s = s ∧ s ≠ []) :
    (m.turnComplete = true → trimL (pendingAfter st m) = [] →
      (onMessage st m).segs = st.segs) ∧
    (∀ s ∈ (runMsgs st ms).segs, trimL s = s ∧ s ≠ []) := by
  constructor
  · intro hm hp
    simp [onMessage, hm, hp]
  · clear m
    induction ms generalizing st with
    | nil => simpa [runMsgs_nil] using hseg
    | cons m ms ih =>
      rw [runMsgs_cons]
      exact ih (onMessage st m) (onMessage_preserves st m hseg)

/-- Witness for **C10**: from the empty initial state, a whitespace-only
boundary is discarded and a run committing `"a"` satisfies the
invariant. -/
theorem finalized_segments_nonempty_witness :
    (onMessage initState (LiveMsg.mk (some [' ']) true)).segs = initState.segs ∧
    (∀ s ∈ (runMsgs initState [LiveMsg.mk (some ['a']) true]).segs, trimL s = s ∧ s ≠ []) :=
  ⟨(finalized_segments_nonempty initState (LiveMsg.mk (some [' ']) true)
      [LiveMsg.mk (some ['a']) true] (by simp [initState])).1 rfl (by decide),
    (finalized_segments_nonempty initState (LiveMsg.mk (some [' ']) true)
      [LiveMsg.mk (some ['a']) true] (by simp [initState])).2⟩

/-- **C8.** The close path resolves exactly once: invoking it twice in
succession changes nothing the second time (no error, no second
resolution), and the single resolution value is the join of all finalized
segments with a single separating space, trimmed, with progress forced to
100. -/
theorem close_resolves_once (s : SessionSt) (h : s.resolved = none) :
    onCloseHandler (onCloseHandler s) = onCloseHandler s ∧
    (onCloseHandler s).resolved = some (trimL (joinSpace s.segs)) ∧
    (onCloseHandler s).progress = 100 := by
  cases s with
  | mk i t r p sg pd =>
    simp only at h
    subst h
    refine ⟨?_, ?_, ?_⟩
    · simp [onCloseHandler, cleanupAndResolve, cleanup, resolvePromise, joinSpace]
    · simp [onCloseHandler, cleanupAndResolve, cleanup, resolvePromise, joinSpace]
    · simp [onCloseHandler, cleanupAndResolve, cleanup, resolvePromise, joinSpace]

/-- Witness for **C8**: a concrete pending session with two committed
segments. -/
theorem close_resolves_once_witness :
    onCloseHandler (onCloseHandler (SessionSt.mk true true none 0 [['h', 'i'], ['y', 'o']] [])) =
      onCloseHandler (SessionSt.mk true true none 0 [['h', 'i'], ['y', 'o']] []) ∧
    (onCloseHandler (SessionSt.mk true true none 0 [['h', 'i'], ['y', 'o']] [])).resolved =
      some (trimL (joinSpace [['h', 'i'], ['y', 'o']])) ∧
    (onCloseHandler (SessionSt.mk true true none 0 [['h', 'i'], ['y', 'o']] [])).progress = 100 :=
  close_resolves_once (SessionSt.mk true true none 0 [['h', 'i'], ['y', 'o']] []) rfl

/-- **C9.** For every non-success backend response, `transcribeWithWhisper`
rejects with an error whose message carries the backend status code and
response body, resets progress to 0 as its last progress event before
rejecting, produces no transcript update, and never returns a result. -/
theorem whisper_non_ok_rejects (key : List Char) (resp : FetchResponse)
    (hk : key ≠ []) (hok : resp.ok = false) :
    (transcribeWithWhisper key resp).result =
      Except.error (whisperFailMsg (apiErrorMsg resp.status resp.body)) ∧
    (toString resp.status).toList <:+: whisperFailMsg (apiErrorMsg resp.status resp.body) ∧
    resp.body <:+: whisperFailMsg (apiErrorMsg resp.status resp.body) ∧
    (∀ r, (transcribeWithWhisper key resp).result ≠ Except.ok r) ∧
    (transcribeWithWhisper key resp).progressEvents.getLast? = some 0 ∧
    (transcribeWithWhisper key resp).transcriptionUpdates = [] := by
  have hout : transcribeWithWhisper key resp =
      ⟨[0, 0], [], Except.error (whisperFailMsg (apiErrorMsg resp.status resp.body))⟩ := by
    unfold transcribeWithWhisper
    rw [if_neg hk, hok]
    simp
  refine ⟨by rw [hout], ?_, ?_, ?_, ?_, ?_⟩
  · exact ⟨"Failed to transcribe with Whisper: ".toList ++ "OpenAI API error: ".toList,
      " - ".toList ++ resp.body, by simp [whisperFailMsg, apiErrorMsg]⟩
  · exact ⟨"Failed to transcribe with Whisper: ".toList ++ "OpenAI API error: ".toList ++
      (toString resp.status).toList ++ " - ".toList, [],
      by simp [whisperFailMsg, apiErrorMsg]⟩
  · intro r
    rw [hout]
    simp
  · rw [hout]
    rfl
  · rw [hout]

/-- Witness for **C9**: a 404 response with body `"no"`. -/
theorem whisper_non_ok_rejects_witness :
    (transcribeWithWhisper ['k'] (FetchResponse.mk false 404 ['n', 'o'])).result =
      Except.error (whisperFailMsg (apiErrorMsg 404 ['n', 'o'])) ∧
    (toString (404 : Nat)).toList <:+: whisperFailMsg (apiErrorMsg 404 ['n', 'o']) ∧
    ['n', 'o'] <:+: whisperFailMsg (apiErrorMsg 404 ['n', 'o']) ∧
    (∀ r, (transcribeWithWhisper ['k'] (FetchResponse.mk false 404 ['n', 'o'])).result ≠
      Except.ok r) ∧
    (transcribeWithWhisper ['k'] (FetchResponse.mk false 404 ['n', 'o'])).progressEvents.getLast? =
      some 0 ∧
    (transcribeWithWhisper ['k'] (FetchResponse.mk false 404 ['n', 'o'])).transcriptionUpdates = [] :=
  whisper_non_ok_rejects ['k'] (FetchResponse.mk false 404 ['n', 'o']) (by simp) rfl

end VideoTranscriber
